import Mathlib

/-!
Verification of the PanRuleOrder repository (src/pan-rule-order.py), a tool
that reorders Palo Alto Panorama security-policy `entry` elements inside a
rule container of an XML document according to a CSV-supplied name order.

The development shallowly embeds the source program:
* `Element` models an `xml.etree.ElementTree` element (tag, attributes,
  text, children).  Tags of namespaced documents carry the parsed
  `\x7buri\x7dlocal` form, exactly as ElementTree produces them.
* `find_rules_section` embeds the Python function of the same name
  (lines 12-45), including its namespace-qualification branch.  Its
  informational prints are not modelled (pure logging).
* `buildPolicyMap` embeds the dict comprehension of line 52 with Python
  dict semantics: insertion-ordered keys, later duplicate overwrites the
  value in place, `KeyError` on a missing `name` attribute.
* `reorder_core` embeds lines 52-73 of `reorder_policies`: the ordering
  loop with its warnings, the `remaining` collection with its notes, and
  the `clear()` + `append` rewrite of the container (`clear()` drops the
  container's attributes and text and all previous children).
* `setPath`/`getPath`/`reorderAt` model the in-place mutation of the found
  section at its tree position (lines 71-73 mutate the element object that
  lives at one position of the document tree).
* `mainRun` embeds `main` (lines 86-126) over an abstract world (file
  existence, parsed document, parsed CSV rows), recording the file reads,
  writes, printed lines and the exit code.
-/

set_option maxHeartbeats 1000000

/-- XML element as produced by `xml.etree.ElementTree`: a tag, an attribute
map, optional text, and a list of child elements. -/
inductive Element where
  | mk (tag : String) (attrib : List (String × String)) (text : Option String)
       (children : List Element)

mutual

def Element.decEq : (a b : Element) → Decidable (a = b)
  | .mk t a x cs, .mk t' a' x' cs' =>
    if h1 : t = t' then
      if h2 : a = a' then
        if h3 : x = x' then
          match Element.decEqList cs cs' with
          | isTrue h4 => isTrue (by rw [h1, h2, h3, h4])
          | isFalse h4 => isFalse (by intro h; injection h; contradiction)
        else isFalse (by intro h; injection h; contradiction)
      else isFalse (by intro h; injection h; contradiction)
    else isFalse (by intro h; injection h; contradiction)

def Element.decEqList : (a b : List Element) → Decidable (a = b)
  | [], [] => isTrue rfl
  | [], _ :: _ => isFalse (by intro h; cases h)
  | _ :: _, [] => isFalse (by intro h; cases h)
  | e :: es, f :: fs =>
    match Element.decEq e f, Element.decEqList es fs with
    | isTrue h1, isTrue h2 => isTrue (by rw [h1, h2])
    | isFalse h1, _ => isFalse (by intro h; injection h; contradiction)
    | _, isFalse h2 => isFalse (by intro h; injection h; contradiction)

end

instance : DecidableEq Element := Element.decEq

instance {ε α : Type} [DecidableEq ε] [DecidableEq α] :
    DecidableEq (Except ε α) := fun a b =>
  match a, b with
  | .ok x, .ok y =>
    if h : x = y then isTrue (by rw [h])
    else isFalse (by intro hh; injection hh; contradiction)
  | .error x, .error y =>
    if h : x = y then isTrue (by rw [h])
    else isFalse (by intro hh; injection hh; contradiction)
  | .ok _, .error _ => isFalse (by intro h; cases h)
  | .error _, .ok _ => isFalse (by intro h; cases h)

def Element.tag : Element → String
  | .mk t _ _ _ => t

def Element.attrib : Element → List (String × String)
  | .mk _ a _ _ => a

def Element.text : Element → Option String
  | .mk _ _ x _ => x

def Element.children : Element → List Element
  | .mk _ _ _ c => c

/-- `e.attrib.get(k)` / `e.attrib[k]` lookup, first matching attribute. -/
def Element.getAttr (e : Element) (k : String) : Option String :=
  (e.attrib.find? (fun p => p.1 = k)).map Prod.snd

mutual

/-- The element itself followed by all its descendants, in document
(pre-)order. -/
def Element.selfAndDesc : Element → List Element
  | .mk t a x cs => Element.mk t a x cs :: descendantsList cs

/-- All proper descendants of the elements of a list, in document
(pre-)order; models iteration order of ElementTree `.//` searches. -/
def descendantsList : List Element → List Element
  | [] => []
  | c :: rest => Element.selfAndDesc c ++ descendantsList rest

end

/-- All proper descendants of `root`, in document order (what `.//` ranges
over: every subelement on every level beneath `root`, excluding `root`). -/
def descendants (root : Element) : List Element :=
  descendantsList root.children

/-- Children of `e` with tag `t` (one step of an ElementTree path). -/
def childrenTagged (e : Element) (t : String) : List Element :=
  e.children.filter (fun c => c.tag = t)

/-- All elements reached from `e` by following the child-tag chain `ts`,
in document order; models a relative ElementTree path `t1/t2/...`. -/
def chain (ts : List String) (e : Element) : List Element :=
  match ts with
  | [] => [e]
  | t :: rest => (childrenTagged e t).flatMap (chain rest)

/-- All matches of the ElementTree path `.//t1/t2/...` below `root`. -/
def findallDesc (root : Element) (ts : List String) : List Element :=
  match ts with
  | [] => []
  | t :: rest => ((descendants root).filter (fun e => e.tag = t)).flatMap (chain rest)

/-- First match of `.//t1/t2/...` (ElementTree `find`). -/
def findDesc (root : Element) (ts : List String) : Option Element :=
  (findallDesc root ts).head?

/-- Does the tag carry a namespace marker, i.e. `'\x7d' in root.tag`? -/
def hasNsTag (t : String) : Bool :=
  t.toList.contains '}'

/-- `root.tag.split('\x7d')[0].strip('\x7b')`: the namespace URI. -/
def nsUriOf (t : String) : String :=
  String.mk ((((t.toList.takeWhile (fun c => c ≠ '}')).dropWhile
      (fun c => c = '{')).reverse.dropWhile (fun c => c = '{')).reverse)

/-- Namespace-qualify one tag the way an ElementTree `ns:` prefix resolves:
`ns:t` with `ns → u` matches tag `\x7bu\x7dt`. -/
def qualTag (u : String) (t : String) : String :=
  "\x7b" ++ u ++ "\x7d" ++ t

def sharedNotFoundMsg : String :=
  "❌ Shared security rules not found in pre- or post-rulebase."

def dgNotFoundMsg (device_group : String) : String :=
  "❌ Device group \x27" ++ device_group ++ "\x27 not found."

def dgRulesNotFoundMsg (device_group : String) : String :=
  "❌ Security rules not found in pre- or post-rulebase for device group \x27"
    ++ device_group ++ "\x27."

/-- The device-group `entry` elements matching
`.//device-group/entry[@name=device_group]` with the given two tags. -/
def dgEntriesTagged (root : Element) (dgTag : String) (enTag : String)
    (device_group : String) : List Element :=
  ((descendants root).filter (fun e => e.tag = dgTag)).flatMap
    (fun dg => (childrenTagged dg enTag).filter
      (fun e => e.getAttr ("name") = some device_group))

/-- Embedding of `find_rules_section` (src/pan-rule-order.py lines 12-45).
Errors are the `ValueError` messages the Python raises. -/
def find_rules_section (root : Element) (device_group : String)
    (shared : Bool) : Except String Element :=
  let ns : Option String :=
    if hasNsTag root.tag then some (nsUriOf root.tag) else none
  if shared then
    let path1 : List String :=
      match ns with
      | some u => [qualTag u ("shared"), qualTag u ("post-rulebase"),
                   qualTag u ("security"), qualTag u ("rules")]
      | none => ["shared", "post-rulebase", "security", "rules"]
    match findDesc root path1 with
    | some rules => .ok rules
    | none =>
      let path2 : List String :=
        match ns with
        | some u => [qualTag u ("shared"), qualTag u ("pre-rulebase"),
                     qualTag u ("security"), qualTag u ("rules")]
        | none => ["shared", "pre-rulebase", "security", "rules"]
      match findDesc root path2 with
      | some rules => .ok rules
      | none => .error sharedNotFoundMsg
  else
    let dgTag : String :=
      match ns with
      | some u => qualTag u ("device-group")
      | none => "device-group"
    let enTag : String :=
      match ns with
      | some u => qualTag u ("entry")
      | none => "entry"
    match (dgEntriesTagged root dgTag enTag device_group).head? with
    | none => .error (dgNotFoundMsg device_group)
    | some dg_entry =>
      let post : List String :=
        match ns with
        | some u => [qualTag u ("post-rulebase"), qualTag u ("security"),
                     qualTag u ("rules")]
        | none => ["post-rulebase", "security", "rules"]
      match (chain post dg_entry).head? with
      | some rules => .ok rules
      | none =>
        let pre : List String :=
          match ns with
          | some u => [qualTag u ("pre-rulebase"), qualTag u ("security"),
                       qualTag u ("rules")]
          | none => ["pre-rulebase", "security", "rules"]
        match (chain pre dg_entry).head? with
        | some rules => .ok rules
        | none => .error (dgRulesNotFoundMsg device_group)

/-- Python-dict insertion (`d[k] = v`): if the key is present, the value at
the key's existing position is overwritten; otherwise the pair is appended.
Models the insertion-ordered semantics of the dict built on line 52. -/
def dictInsert (m : List (String × Element)) (k : String) (v : Element) :
    List (String × Element) :=
  if m.any (fun p => p.1 = k) then
    m.map (fun p => if p.1 = k then (k, v) else p)
  else m ++ [(k, v)]

/-- `d.get(k)`: the value stored at `k`, first matching pair. -/
def lookupName (m : List (String × Element)) (k : String) : Option Element :=
  match m with
  | [] => none
  | p :: rest => if p.1 = k then some p.2 else lookupName rest k

def keysOf (m : List (String × Element)) : List String :=
  m.map Prod.fst

/-- `str(KeyError('name'))` as printed by the `except` handler of `main`. -/
def keyErrMsg : String := "\x27name\x27"

/-- The direct children the code treats as rules:
`rules_section.findall("entry")`. -/
def entryChildren (e : Element) : List Element :=
  e.children.filter (fun c => c.tag = "entry")

/-- The `\x7bentry.attrib['name']: entry ...\x7d` dict comprehension of
line 52, generalized over the starting dict; raises `KeyError` (modelled as
`.error`) when an entry has no `name` attribute. -/
def buildPolicyMapAux (m : List (String × Element)) :
    List Element → Except String (List (String × Element))
  | [] => .ok m
  | e :: rest =>
    match e.getAttr ("name") with
    | some n => buildPolicyMapAux (dictInsert m n e) rest
    | none => .error keyErrMsg

def buildPolicyMap (es : List Element) :
    Except String (List (String × Element)) :=
  buildPolicyMapAux [] es

def warnMsg (name : String) : String :=
  "⚠️ Warning: Policy \x27" ++ name ++ "\x27 not found in the XML."

def noteHeader : String :=
  "ℹ️ Note: The following policies were not in the CSV and will be added at the end:"

def noteLine (e : Element) : String :=
  "    - " ++ ((e.getAttr ("name")).getD "")

/-- One iteration of the `for name in desired_order` loop (lines 57-62):
append the found element, or print a warning. -/
def orderStep (pm : List (String × Element))
    (acc : List Element × List String) (name : String) :
    List Element × List String :=
  match lookupName pm name with
  | some entry => (acc.1 ++ [entry], acc.2)
  | none => (acc.1, acc.2 ++ [warnMsg name])

/-- Result of the container rewrite: the new container value and the lines
printed while producing it. -/
structure ReorderOut where
  container : Element
  log : List String

instance : DecidableEq ReorderOut := fun a b =>
  match a, b with
  | .mk c1 l1, .mk c2 l2 =>
    if h1 : c1 = c2 then
      if h2 : l1 = l2 then isTrue (by rw [h1, h2])
      else isFalse (by intro h; injection h; contradiction)
    else isFalse (by intro h; injection h; contradiction)

/-- Embedding of lines 52-73 of `reorder_policies`: build the name → entry
dict from the container's `entry` children, walk the desired order, collect
the remaining dict entries whose name is not in the desired order, then
`clear()` the container (drops children, attributes and text) and append
the new rule sequence. -/
def reorder_core (sec : Element) (desired : List String) :
    Except String ReorderOut :=
  match buildPolicyMap (entryChildren sec) with
  | .error e => .error e
  | .ok pm =>
    let res := desired.foldl (orderStep pm) ([], [])
    let remainingPairs := pm.filter (fun p => decide (p.1 ∉ desired))
    let remaining := remainingPairs.map Prod.snd
    let noteLog : List String :=
      if remaining.isEmpty then [] else noteHeader :: remaining.map noteLine
    .ok ⟨Element.mk sec.tag [] none (res.1 ++ remaining), res.2 ++ noteLog⟩

/-- Python `str.strip()`: remove leading and trailing whitespace. -/
def pyStrip (s : String) : String :=
  String.mk (((s.toList.dropWhile Char.isWhitespace).reverse.dropWhile
    Char.isWhitespace).reverse)

/-- `[row[0].strip() for row in reader if row]` (line 10) over the parsed
CSV rows. -/
def read_policy_order_from_csv (rows : List (List String)) : List String :=
  rows.filterMap (fun r =>
    match r with
    | [] => none
    | x :: _ => some (pyStrip x))

/-- How Python renders `attrib.get('name')` inside an f-string:
the string itself, or `None` when absent. -/
def pyShowOpt (o : Option String) : String :=
  match o with
  | some s => s
  | none => "None"

/-- Embedding of `list_device_groups` (lines 78-84): the printed lines. -/
def list_device_groups (root : Element) : List String :=
  let groups := findallDesc root ["device-group", "entry"]
  ["📋 Available device groups in XML:"] ++
    (if groups.isEmpty then ["  (No device groups found)"] else []) ++
    groups.map (fun g => "  - " ++ pyShowOpt (g.getAttr ("name")))

/-- Subtree of the document at a path of child indices. -/
def getPath : Element → List Nat → Option Element
  | e, [] => some e
  | e, i :: rest =>
    match e.children[i]? with
    | some c => getPath c rest
    | none => none

/-- Replace the subtree at a path of child indices (the functional image of
mutating, in place, the element object living at that position). -/
def setPath : Element → List Nat → Element → Element
  | _, [], r => r
  | e, i :: rest, r =>
    match e.children[i]? with
    | some c => Element.mk e.tag e.attrib e.text (e.children.set i (setPath c rest r))
    | none => e

/-- Document-level view of lines 51 + 71-73: the rule container living at
position `p` of the tree is rewritten in place; the rest of the tree keeps
its structure. -/
def reorderAt (root : Element) (p : List Nat) (desired : List String) :
    Except String Element :=
  match getPath root p with
  | none => .error ("no rules section at the given position")
  | some sec => (reorder_core sec desired).map (fun r => setPath root p r.container)

/-- Command-line inputs of `main` after argparse (lines 88-93). -/
structure Args where
  xml_file : String
  csv_file : String
  output_file : String
  device_group : Option String
  shared : Bool
  list : Bool

/-- The file-system facts `main` consults: whether the two input paths
exist, the document the XML file parses to, and the CSV rows. -/
structure World where
  xmlExists : Bool
  csvExists : Bool
  doc : Element
  csvRows : List (List String)

/-- Observable outcome of one run: exit code, the file paths opened for
reading, the file paths written, and the printed lines. -/
structure RunResult where
  exitCode : Nat
  reads : List String
  writes : List String
  output : List String

/-- Python truthiness of `args.device_group` (`None` or `""` are falsy). -/
def dgFalsy (o : Option String) : Bool :=
  match o with
  | none => true
  | some s => s.isEmpty

/-- Embedding of `main` (lines 97-126): existence checks, the parse of the
XML file, `--list` mode, selector validation, then `reorder_policies`
(which re-parses the XML, locates the section, builds the dict — a
`KeyError` there aborts before the CSV is opened — reads the CSV, reorders,
and writes the output file); any exception is caught and the run exits 1. -/
def mainRun (args : Args) (w : World) : RunResult :=
  if w.xmlExists = false then
    ⟨1, [], [], ["❌ XML file not found: " ++ args.xml_file]⟩
  else if args.list = false ∧ w.csvExists = false then
    ⟨1, [], [], ["❌ CSV file not found: " ++ args.csv_file]⟩
  else if args.list = true then
    ⟨0, [args.xml_file], [], list_device_groups w.doc⟩
  else if args.shared = false ∧ dgFalsy args.device_group = true then
    ⟨1, [args.xml_file], [],
      ["❌ You must specify a device group name with --device-group, or use --shared."]⟩
  else
    match find_rules_section w.doc ((args.device_group).getD "") args.shared with
    | .error e => ⟨1, [args.xml_file, args.xml_file], [], ["❌ Error: " ++ e]⟩
    | .ok sec =>
      match buildPolicyMap (entryChildren sec) with
      | .error e => ⟨1, [args.xml_file, args.xml_file], [], ["❌ Error: " ++ e]⟩
      | .ok _ =>
        let desired := read_policy_order_from_csv w.csvRows
        match reorder_core sec desired with
        | .error e =>
          ⟨1, [args.xml_file, args.xml_file, args.csv_file], [], ["❌ Error: " ++ e]⟩
        | .ok r =>
          ⟨0, [args.xml_file, args.xml_file, args.csv_file], [args.output_file],
            r.log ++ ["✅ Reordered XML written to: " ++ args.output_file]⟩

/-! ### Derived notions used by the specification statements -/

/-- The name attribute of an entry, defaulted; equals the real attribute
whenever the entry has one. -/
def nameD (e : Element) : String :=
  (e.getAttr ("name")).getD ""

/-- First-defined choice of two optional values. -/
def optOr (a b : Option Element) : Option Element :=
  match a with
  | some x => some x
  | none => b

/-- The elements the ordering loop emits: one per desired name found. -/
def newRulesOf (pm : List (String × Element)) (desired : List String) :
    List Element :=
  desired.filterMap (lookupName pm)

/-- The warnings the ordering loop prints: one per desired name missing. -/
def warnsOf (pm : List (String × Element)) (desired : List String) :
    List String :=
  (desired.filter (fun n => (lookupName pm n).isNone)).map warnMsg

/-- The dict pairs whose key never occurs in the desired order. -/
def remainingPairsOf (pm : List (String × Element)) (desired : List String) :
    List (String × Element) :=
  pm.filter (fun p => decide (p.1 ∉ desired))

/-- The appended-at-the-end elements. -/
def remainingOf (pm : List (String × Element)) (desired : List String) :
    List Element :=
  (remainingPairsOf pm desired).map Prod.snd

/-- The note lines printed for the appended elements. -/
def notesOf (pm : List (String × Element)) (desired : List String) :
    List String :=
  if (remainingOf pm desired).isEmpty then []
  else noteHeader :: (remainingOf pm desired).map noteLine

/-- Everything the rewrite keeps of an ancestor element: tag, attributes,
text, and how many children it has. -/
def shellOf (e : Element) : String × List (String × String) × Option String × Nat :=
  (e.tag, e.attrib, e.text, e.children.length)

/-- Qualify one tag with the document's namespace when it declares one. -/
def nsTagQ (root : Element) (t : String) : String :=
  if hasNsTag root.tag then qualTag (nsUriOf root.tag) t else t

/-- Qualify a whole structural path with the document's namespace. -/
def nsPath (root : Element) (ts : List String) : List String :=
  ts.map (nsTagQ root)

/-- Modelled from the claim's words (spec §4.1, shared mode): return the
rules element under shared → post-rulebase → security if present, else the
one under shared → pre-rulebase → security, else fail with the not-found
error; the same structural path resolves whether or not the document
declares a namespace. -/
def sharedSectionSpec (root : Element) : Except String Element :=
  match findDesc root (nsPath root ["shared", "post-rulebase", "security", "rules"]) with
  | some rules => .ok rules
  | none =>
    match findDesc root (nsPath root ["shared", "pre-rulebase", "security", "rules"]) with
    | some rules => .ok rules
    | none => .error sharedNotFoundMsg

/-- Modelled from the claim's words (spec §4.1, device-group mode): fail
with the group-not-found error when no device-group entry carries the
requested name; otherwise prefer post-rulebase → security → rules inside
that entry, fall back to pre-rulebase → security → rules, and fail with the
rules-not-found error when neither exists. -/
def dgSectionSpec (root : Element) (device_group : String) :
    Except String Element :=
  match (dgEntriesTagged root (nsTagQ root ("device-group"))
      (nsTagQ root ("entry")) device_group).head? with
  | none => .error (dgNotFoundMsg device_group)
  | some dg_entry =>
    match (chain (nsPath root ["post-rulebase", "security", "rules"]) dg_entry).head? with
    | some rules => .ok rules
    | none =>
      match (chain (nsPath root ["pre-rulebase", "security", "rules"]) dg_entry).head? with
      | some rules => .ok rules
      | none => .error (dgRulesNotFoundMsg device_group)

/-! ### Concrete documents used to instantiate the theorems -/

def entryA : Element := Element.mk ("entry") [("name", "a")] none []

def entryB : Element := Element.mk ("entry") [("name", "b")] none []

def entryC : Element := Element.mk ("entry") [("name", "c")] none []

/-- A second entry also named `a`, with different content. -/
def entryA2 : Element := Element.mk ("entry") [("name", "a"), ("action", "deny")] none []

/-- An entry with no `name` attribute. -/
def entryNoName : Element := Element.mk ("entry") [("action", "allow")] none []

/-- A non-entry child living among the rules (e.g. a differently tagged
element). -/
def strayChild : Element := Element.mk ("comment") [("note", "x")] (some ("hello")) []

def sampleRules : Element :=
  Element.mk ("rules") [("uuid", "1")] (some (" ")) [entryA, strayChild, entryB, entryC]

def sampleRulesDup : Element :=
  Element.mk ("rules") [] none [entryA, entryA2, entryB]

def sampleRulesBad : Element :=
  Element.mk ("rules") [] none [entryA, entryNoName]

def wrapShared (rules : Element) : Element :=
  Element.mk ("config") [] none
    [Element.mk ("shared") [] none
      [Element.mk ("post-rulebase") [] none
        [Element.mk ("security") [] none [rules]]],
     Element.mk ("devices") [("id", "d1")] (some ("dev")) []]

def sampleRoot : Element := wrapShared sampleRules

def sampleRootBad : Element := wrapShared sampleRulesBad

def sampleArgs : Args := ⟨"panorama.xml", "order.csv", "out.xml", none, true, false⟩

def sampleArgsListing : Args := ⟨"panorama.xml", "order.csv", "out.xml", none, false, true⟩

def sampleWorldBad : World := ⟨true, true, sampleRootBad, [["a"]]⟩

def sampleWorldListing : World := ⟨true, false, sampleRoot, []⟩

/-! ### Lemmas: the dict model -/

theorem optOr_some (x : Element) (b : Option Element) :
    optOr (some x) b = some x := rfl

theorem optOr_none (b : Option Element) : optOr none b = b := rfl

theorem optOr_assoc (a b c : Option Element) :
    optOr (optOr a b) c = optOr a (optOr b c) := by
  cases a <;> simp [optOr]

theorem getLast?_cons_optOr (a : Element) (l : List Element) :
    (a :: l).getLast? = optOr l.getLast? (some a) := by
  cases l with
  | nil => rfl
  | cons b t =>
    rw [List.getLast?_cons_cons]
    cases h : (b :: t).getLast? with
    | none => simp [List.getLast?_eq_none_iff] at h
    | some x => simp [optOr]

theorem lookupName_eq_none (m : List (String × Element)) (k : String) :
    lookupName m k = none ↔ k ∉ keysOf m := by
  induction m with
  | nil => simp [lookupName, keysOf]
  | cons p rest ih =>
    by_cases h : p.1 = k
    · simp [lookupName, h, keysOf]
    · simp [lookupName, h, keysOf, ih, Ne.symm h]

theorem lookupName_append (m1 m2 : List (String × Element)) (k : String) :
    lookupName (m1 ++ m2) k = optOr (lookupName m1 k) (lookupName m2 k) := by
  induction m1 with
  | nil => simp [lookupName, optOr]
  | cons p rest ih =>
    by_cases h : p.1 = k <;> simp [lookupName, h, optOr, ih]

theorem lookupName_mapReplace (m : List (String × Element)) (k : String)
    (v : Element) :
    lookupName (m.map (fun p => if p.1 = k then (k, v) else p)) k =
      if m.any (fun p => p.1 = k) then some v else none := by
  induction m with
  | nil => simp [lookupName]
  | cons p rest ih =>
    by_cases h : p.1 = k
    · simp [lookupName, h]
    · have hd : (decide (p.1 = k)) = false := by simp [h]
      simp only [List.map_cons, List.any_cons, hd, Bool.false_or]
      simp [lookupName, h, ih]

theorem lookupName_mapReplace_ne (m : List (String × Element)) (k k' : String)
    (v : Element) (h : k' ≠ k) :
    lookupName (m.map (fun p => if p.1 = k then (k, v) else p)) k' =
      lookupName m k' := by
  induction m with
  | nil => simp
  | cons p rest ih =>
    by_cases hp : p.1 = k
    · have hk : ¬ k = k' := fun hh => h hh.symm
      simp [lookupName, hp, hk, ih]
    · by_cases hp' : p.1 = k'
      · simp [lookupName, hp, hp', h]
      · simp [lookupName, hp, hp', ih]

theorem keysOf_dictInsert (m : List (String × Element)) (k : String)
    (v : Element) :
    keysOf (dictInsert m k v) =
      if m.any (fun p => p.1 = k) then keysOf m else keysOf m ++ [k] := by
  unfold dictInsert
  split
  · simp only [keysOf, List.map_map]
    refine List.map_congr_left ?_
    intro p _
    by_cases hp : p.1 = k <;> simp [hp, Function.comp]
  · simp [keysOf]

theorem mem_keysOf_iff (m : List (String × Element)) (k : String) :
    k ∈ keysOf m ↔ ∃ p ∈ m, p.1 = k := by
  simp [keysOf, List.mem_map, eq_comm]

theorem any_key_iff (m : List (String × Element)) (k : String) :
    m.any (fun p => p.1 = k) = true ↔ k ∈ keysOf m := by
  rw [mem_keysOf_iff]
  simp [List.any_eq_true]

theorem nodup_keysOf_dictInsert (m : List (String × Element)) (k : String)
    (v : Element) (h : (keysOf m).Nodup) :
    (keysOf (dictInsert m k v)).Nodup := by
  rw [keysOf_dictInsert]
  split
  · exact h
  · rename_i hany
    have hk : k ∉ keysOf m := by
      intro hmem
      exact hany ((any_key_iff m k).mpr hmem)
    simp [List.nodup_append, h, hk]

theorem lookupName_dictInsert_self (m : List (String × Element)) (k : String)
    (v : Element) : lookupName (dictInsert m k v) k = some v := by
  unfold dictInsert
  split
  · rename_i hany
    rw [lookupName_mapReplace, if_pos hany]
  · rename_i hany
    rw [lookupName_append]
    have : lookupName m k = none := by
      rw [lookupName_eq_none]
      intro hmem
      exact hany ((any_key_iff m k).mpr hmem)
    simp [this, optOr, lookupName]

theorem lookupName_dictInsert_ne (m : List (String × Element)) (k k' : String)
    (v : Element) (h : k' ≠ k) :
    lookupName (dictInsert m k v) k' = lookupName m k' := by
  unfold dictInsert
  split
  · exact lookupName_mapReplace_ne m k k' v h
  · rw [lookupName_append]
    cases hl : lookupName m k' with
    | some x => simp [optOr]
    | none => simp [optOr, lookupName, Ne.symm h]

theorem mem_dictInsert (m : List (String × Element)) (k : String) (v : Element)
    (p : String × Element) (hp : p ∈ dictInsert m k v) : p ∈ m ∨ p = (k, v) := by
  unfold dictInsert at hp
  split at hp
  · rcases List.mem_map.mp hp with ⟨q, hq, hqe⟩
    by_cases h : q.1 = k
    · right
      rw [← hqe]
      simp [h]
    · left
      rw [← hqe]
      simpa [h] using hq
  · rcases List.mem_append.mp hp with h | h
    · exact Or.inl h
    · right
      simpa using h

/-! ### Lemmas: the policy map construction -/

theorem bpm_ok (es : List Element) :
    ∀ m, (∀ e ∈ es, (e.getAttr ("name")).isSome) →
      ∃ pm, buildPolicyMapAux m es = .ok pm := by
  induction es with
  | nil =>
    intro m _
    exact ⟨m, rfl⟩
  | cons e rest ih =>
    intro m h
    rcases Option.isSome_iff_exists.mp (h e (by simp)) with ⟨n, hn⟩
    simp only [buildPolicyMapAux, hn]
    exact ih _ (fun x hx => h x (by simp [hx]))

theorem bpm_err (es : List Element) :
    ∀ m, (∃ e ∈ es, e.getAttr ("name") = none) →
      buildPolicyMapAux m es = .error keyErrMsg := by
  induction es with
  | nil =>
    intro m h
    simp at h
  | cons e rest ih =>
    intro m h
    cases hn : e.getAttr ("name") with
    | none => simp [buildPolicyMapAux, hn]
    | some n =>
      simp only [buildPolicyMapAux, hn]
      rcases h with ⟨x, hx, hxn⟩
      rcases List.mem_cons.mp hx with rfl | hx'
      · rw [hn] at hxn
        cases hxn
      · exact ih _ ⟨x, hx', hxn⟩

theorem bpm_pred (P : String × Element → Prop) (es : List Element) :
    ∀ m pm, buildPolicyMapAux m es = .ok pm →
      (∀ p ∈ m, P p) →
      (∀ e ∈ es, ∀ n, e.getAttr ("name") = some n → P (n, e)) →
      ∀ p ∈ pm, P p := by
  induction es with
  | nil =>
    intro m pm h hm _
    simp only [buildPolicyMapAux] at h
    cases h
    exact hm
  | cons e rest ih =>
    intro m pm h hm hes
    cases hn : e.getAttr ("name") with
    | none => simp [buildPolicyMapAux, hn] at h
    | some n =>
      simp only [buildPolicyMapAux, hn] at h
      refine ih _ _ h ?_ ?_
      · intro p hp
        rcases mem_dictInsert m n e p hp with h' | h'
        · exact hm p h'
        · rw [h']
          exact hes e (by simp) n hn
      · intro x hx n' hn'
        exact hes x (by simp [hx]) n' hn'

theorem bpm_keys_nodup (es : List Element) :
    ∀ m pm, buildPolicyMapAux m es = .ok pm →
      (keysOf m).Nodup → (keysOf pm).Nodup := by
  induction es with
  | nil =>
    intro m pm h hm
    simp only [buildPolicyMapAux] at h
    cases h
    exact hm
  | cons e rest ih =>
    intro m pm h hm
    cases hn : e.getAttr ("name") with
    | none => simp [buildPolicyMapAux, hn] at h
    | some n =>
      simp only [buildPolicyMapAux, hn] at h
      exact ih _ _ h (nodup_keysOf_dictInsert m n e hm)

theorem bpm_mem_keys (es : List Element) :
    ∀ m pm, buildPolicyMapAux m es = .ok pm →
      ∀ k, (k ∈ keysOf pm ↔
        k ∈ keysOf m ∨ k ∈ es.filterMap (fun e => e.getAttr ("name"))) := by
  induction es with
  | nil =>
    intro m pm h k
    simp only [buildPolicyMapAux] at h
    cases h
    simp
  | cons e rest ih =>
    intro m pm h k
    cases hn : e.getAttr ("name") with
    | none => simp [buildPolicyMapAux, hn] at h
    | some n =>
      simp only [buildPolicyMapAux, hn] at h
      rw [ih _ _ h k]
      have hkeys : k ∈ keysOf (dictInsert m n e) ↔ k ∈ keysOf m ∨ k = n := by
        rw [keysOf_dictInsert]
        split
        · rename_i hany
          constructor
          · exact Or.inl
          · rintro (hk | rfl)
            · exact hk
            · exact (any_key_iff m k).mp hany
        · simp [List.mem_append]
      rw [hkeys]
      simp only [List.filterMap_cons, hn, List.mem_cons]
      tauto

theorem bpm_lookup_last (es : List Element) :
    ∀ m pm, buildPolicyMapAux m es = .ok pm →
      (∀ e ∈ es, (e.getAttr ("name")).isSome) →
      ∀ n, lookupName pm n =
        optOr ((es.filter (fun e => e.getAttr ("name") = some n)).getLast?)
          (lookupName m n) := by
  induction es with
  | nil =>
    intro m pm h _ n
    simp only [buildPolicyMapAux] at h
    cases h
    simp [optOr]
  | cons e rest ih =>
    intro m pm h hnames n
    cases hn : e.getAttr ("name") with
    | none =>
      rcases Option.isSome_iff_exists.mp (hnames e (by simp)) with ⟨x, hx⟩
      rw [hn] at hx
      cases hx
    | some ne =>
      simp only [buildPolicyMapAux, hn] at h
      have := ih _ _ h (fun x hx => hnames x (by simp [hx])) n
      by_cases hen : ne = n
      · subst hen
        rw [lookupName_dictInsert_self] at this
        have hfe : (e :: rest).filter (fun e => e.getAttr ("name") = some ne) =
            e :: rest.filter (fun e => e.getAttr ("name") = some ne) := by
          simp [List.filter_cons, hn]
        rw [hfe, getLast?_cons_optOr, optOr_assoc, this, optOr_some]
      · rw [lookupName_dictInsert_ne m ne n e (fun hh => hen hh.symm)] at this
        have hfe : (e :: rest).filter (fun e => e.getAttr ("name") = some n) =
            rest.filter (fun e => e.getAttr ("name") = some n) := by
          simp [List.filter_cons, hn, hen]
        rw [hfe, this]

theorem bpm_graph (es : List Element) :
    ∀ m, (∀ e ∈ es, (e.getAttr ("name")).isSome) →
      (keysOf m ++ es.map nameD).Nodup →
      buildPolicyMapAux m es = .ok (m ++ es.map (fun e => (nameD e, e))) := by
  induction es with
  | nil =>
    intro m _ _
    simp [buildPolicyMapAux]
  | cons e rest ih =>
    intro m h hnd
    have he : e.getAttr ("name") = some (nameD e) := by
      rcases Option.isSome_iff_exists.mp (h e (by simp)) with ⟨n, hn⟩
      simp [nameD, hn]
    have hkey : ¬ (m.any (fun p => p.1 = nameD e)) = true := by
      intro hany
      have hk : nameD e ∈ keysOf m := (any_key_iff m (nameD e)).mp hany
      rw [List.nodup_append] at hnd
      exact hnd.2.2 hk (by simp)
    have hstep : buildPolicyMapAux m (e :: rest) =
        buildPolicyMapAux (dictInsert m (nameD e) e) rest := by
      simp [buildPolicyMapAux, he]
    rw [hstep]
    have hins : dictInsert m (nameD e) e = m ++ [(nameD e, e)] := by
      unfold dictInsert
      rw [if_neg hkey]
    rw [hins]
    have hnd' : (keysOf (m ++ [(nameD e, e)]) ++ rest.map nameD).Nodup := by
      have heq : keysOf (m ++ [(nameD e, e)]) ++ rest.map nameD =
          keysOf m ++ (e :: rest).map nameD := by
        simp [keysOf, List.map_append, List.append_assoc]
      rw [heq]
      exact hnd
    rw [ih _ (fun x hx => h x (by simp [hx])) hnd']
    simp

theorem lookupName_graph (es : List Element) (n : String) (x : Element)
    (hnd : (es.map nameD).Nodup) :
    lookupName (es.map (fun e => (nameD e, e))) n = some x ↔
      (x ∈ es ∧ nameD x = n) := by
  induction es with
  | nil => simp [lookupName]
  | cons e rest ih =>
    simp only [List.map_cons] at hnd
    have hnd' : (rest.map nameD).Nodup := hnd.of_cons
    have hem : nameD e ∉ rest.map nameD := (List.nodup_cons.mp hnd).1
    by_cases hen : nameD e = n
    · rw [List.map_cons]
      constructor
      · intro hl
        simp only [lookupName, hen, if_pos] at hl
        cases hl
        exact ⟨by simp, hen⟩
      · rintro ⟨hx, hxn⟩
        rcases List.mem_cons.mp hx with rfl | hx'
        · simp [lookupName, hen]
        · exfalso
          apply hem
          rw [hen, ← hxn]
          exact List.mem_map_of_mem nameD hx'
    · rw [List.map_cons]
      have hskip : lookupName ((nameD e, e) :: rest.map (fun e => (nameD e, e))) n =
          lookupName (rest.map (fun e => (nameD e, e))) n := by
        simp [lookupName, hen]
      rw [hskip, ih hnd']
      constructor
      · rintro ⟨hx, hxn⟩
        exact ⟨by simp [hx], hxn⟩
      · rintro ⟨hx, hxn⟩
        rcases List.mem_cons.mp hx with rfl | hx'
        · exact absurd hxn hen
        · exact ⟨hx', hxn⟩

/-! ### Lemmas: the reorder engine -/

theorem foldl_orderStep (pm : List (String × Element)) (L : List String) :
    ∀ (a : List Element) (b : List String),
      L.foldl (orderStep pm) (a, b) = (a ++ newRulesOf pm L, b ++ warnsOf pm L) := by
  induction L with
  | nil =>
    intro a b
    simp [newRulesOf, warnsOf]
  | cons n rest ih =>
    intro a b
    cases hl : lookupName pm n with
    | some e =>
      have hstep : orderStep pm (a, b) n = (a ++ [e], b) := by
        simp [orderStep, hl]
      rw [List.foldl_cons, hstep, ih]
      simp [newRulesOf, warnsOf, List.filterMap_cons, hl, List.filter_cons]
    | none =>
      have hstep : orderStep pm (a, b) n = (a, b ++ [warnMsg n]) := by
        simp [orderStep, hl]
      rw [List.foldl_cons, hstep, ih]
      simp [newRulesOf, warnsOf, List.filterMap_cons, hl, List.filter_cons]

theorem reorder_core_eq (sec : Element) (L : List String)
    (pm : List (String × Element))
    (h : buildPolicyMap (entryChildren sec) = .ok pm) :
    reorder_core sec L = .ok ⟨Element.mk sec.tag [] none
        (newRulesOf pm L ++ remainingOf pm L),
      warnsOf pm L ++ notesOf pm L⟩ := by
  simp only [reorder_core, h]
  rw [foldl_orderStep pm L [] []]
  simp [newRulesOf, warnsOf, remainingOf, remainingPairsOf, notesOf]

theorem lookupName_mem (m : List (String × Element)) (k : String) (v : Element)
    (h : lookupName m k = some v) : (k, v) ∈ m := by
  induction m with
  | nil => cases h
  | cons p rest ih =>
    by_cases hp : p.1 = k
    · simp only [lookupName, if_pos hp] at h
      cases p with
      | mk k0 v0 =>
        cases h
        cases hp
        exact List.mem_cons_self _ _
    · simp only [lookupName, if_neg hp] at h
      exact List.mem_cons_of_mem _ (ih h)

theorem getAttr_name_of_isSome (es : List Element) (e : Element)
    (h1 : ∀ x ∈ es, (x.getAttr ("name")).isSome) (he : e ∈ es) :
    e.getAttr ("name") = some (nameD e) := by
  rcases Option.isSome_iff_exists.mp (h1 e he) with ⟨n, hn⟩
  simp [nameD, hn]

theorem count_newRulesOf_graph (es : List Element) (L : List String) (x : Element)
    (hnd : (es.map nameD).Nodup) :
    (newRulesOf (es.map (fun e => (nameD e, e))) L).count x =
      if x ∈ es then L.count (nameD x) else 0 := by
  unfold newRulesOf
  rw [List.count_eq_countP, List.countP_filterMap]
  by_cases hx : x ∈ es
  · rw [if_pos hx, List.count_eq_countP]
    apply List.countP_congr
    intro a _
    cases hl : lookupName (es.map (fun e => (nameD e, e))) a with
    | none =>
      simp only [hl, Option.map_none', Option.getD_none, Bool.false_eq_true,
        false_iff]
      intro hax
      have hax' : a = nameD x := by simpa using hax
      have : lookupName (es.map (fun e => (nameD e, e))) a = some x := by
        rw [hax']
        exact (lookupName_graph es (nameD x) x hnd).mpr ⟨hx, rfl⟩
      rw [hl] at this
      cases this
    | some y =>
      simp only [hl, Option.map_some', Option.getD_some]
      have hy := (lookupName_graph es a y hnd).mp hl
      constructor
      · intro hyx
        have : y = x := by simpa using hyx
        subst this
        simp [← hy.2]
      · intro hax
        have hax' : a = nameD x := by simpa using hax
        have : lookupName (es.map (fun e => (nameD e, e))) a = some x := by
          rw [hax']
          exact (lookupName_graph es (nameD x) x hnd).mpr ⟨hx, rfl⟩
        rw [hl] at this
        cases this
        simp
  · rw [if_neg hx, List.countP_eq_zero]
    intro a _
    cases hl : lookupName (es.map (fun e => (nameD e, e))) a with
    | none => simp [hl]
    | some y =>
      simp only [hl, Option.map_some', Option.getD_some]
      intro hyx
      have : y = x := by simpa using hyx
      subst this
      exact hx ((lookupName_graph es a y hnd).mp hl).1

theorem remainingOf_graph (es : List Element) (L : List String) :
    remainingOf (es.map (fun e => (nameD e, e))) L =
      es.filter (fun e => decide (nameD e ∉ L)) := by
  unfold remainingOf remainingPairsOf
  rw [List.filter_map]
  simp [Function.comp_def]

theorem count_filter_of_nodup (es : List Element) (q : Element → Bool)
    (x : Element) (hnd : es.Nodup) :
    (es.filter q).count x = if x ∈ es ∧ q x then 1 else 0 := by
  by_cases hx : x ∈ es
  · by_cases hq : q x
    · rw [if_pos ⟨hx, hq⟩, List.count_eq_countP, List.countP_filter]
      have heq : List.countP (fun a => (a == x) && q a) es =
          List.countP (fun a => a == x) es := by
        apply List.countP_congr
        intro a _
        constructor
        · intro h
          exact (Bool.and_eq_true _ _).mp h |>.1
        · intro h
          have : a = x := by simpa using h
          subst this
          simp [hq]
      rw [heq, ← List.count_eq_countP, List.count_eq_one_of_mem hnd hx]
    · rw [if_neg (fun hc => hq hc.2), List.count_eq_countP, List.countP_filter,
        List.countP_eq_zero]
      intro a _
      intro hc
      rcases (Bool.and_eq_true _ _).mp hc with ⟨h1, h2⟩
      have : a = x := by simpa using h1
      subst this
      exact hq h2
  · rw [if_neg (fun hc => hx hc.1), List.count_eq_zero]
    intro hmem
    exact hx (List.mem_of_mem_filter hmem)

theorem mem_newRulesOf_graph (es : List Element) (L : List String) (x : Element)
    (hnd : (es.map nameD).Nodup)
    (hx : x ∈ newRulesOf (es.map (fun e => (nameD e, e))) L) :
    x ∈ es ∧ nameD x ∈ L := by
  rcases List.mem_filterMap.mp hx with ⟨a, ha, hl⟩
  rcases (lookupName_graph es a x hnd).mp hl with ⟨hmem, hn⟩
  exact ⟨hmem, hn ▸ ha⟩

theorem reorderOut_container (e : Element) (lg : List String) :
    (ReorderOut.mk e lg).container = e := rfl

theorem children_mk (t : String) (a : List (String × String)) (x : Option String)
    (cs : List Element) : (Element.mk t a x cs).children = cs := rfl

theorem tag_entry_of_mem_entryChildren (c : Element) (e : Element)
    (h : e ∈ entryChildren c) : e.tag = "entry" := by
  have := List.of_mem_filter h
  simpa using this

/-- C1: for every rule container whose entry children each carry a name
attribute with names unique within the container (the data model of spec
§3), and every desired order list that does not repeat any name present in
the container, the rewrite succeeds and the entry children of the output
container are a permutation of the entry children of the input container:
no rule entry is created, deleted, duplicated or attribute-modified, only
the sibling order changes, and in particular the set of rule names is
preserved. -/
theorem reorder_preserves_rule_entry_set (c : Element) (L : List String)
    (h1 : ∀ e ∈ entryChildren c, (e.getAttr ("name")).isSome)
    (h2 : ((entryChildren c).map nameD).Nodup)
    (h3 : ∀ n ∈ (entryChildren c).map nameD, L.count n ≤ 1) :
    ∃ r, reorder_core c L = .ok r ∧
      r.container.children.Perm (entryChildren c) ∧
      entryChildren r.container = r.container.children ∧
      ((entryChildren r.container).filterMap (fun e => e.getAttr ("name"))).toFinset =
        ((entryChildren c).filterMap (fun e => e.getAttr ("name"))).toFinset := by
  have hesNodup : (entryChildren c).Nodup := List.Nodup.of_map nameD h2
  have hpm : buildPolicyMap (entryChildren c) =
      .ok ((entryChildren c).map (fun e => (nameD e, e))) := by
    unfold buildPolicyMap
    exact bpm_graph (entryChildren c) [] h1 (by simpa [keysOf] using h2)
  have hr := reorder_core_eq c L _ hpm
  have hperm : (newRulesOf ((entryChildren c).map (fun e => (nameD e, e))) L ++
      remainingOf ((entryChildren c).map (fun e => (nameD e, e))) L).Perm
      (entryChildren c) := by
    rw [remainingOf_graph]
    apply List.perm_iff_count.mpr
    intro x
    rw [List.count_append, count_newRulesOf_graph _ L x h2,
      count_filter_of_nodup _ _ x hesNodup]
    by_cases hx : x ∈ entryChildren c
    · by_cases hm : nameD x ∈ L
      · have hcount1 : L.count (nameD x) = 1 :=
          Nat.le_antisymm (h3 _ (List.mem_map_of_mem _ hx))
            (List.one_le_count_iff.mpr hm)
        simp [hx, hm, hcount1, List.count_eq_one_of_mem hesNodup hx]
      · have hz : L.count (nameD x) = 0 := List.count_eq_zero.mpr hm
        simp [hx, hm, hz, List.count_eq_one_of_mem hesNodup hx]
    · have hz : (entryChildren c).count x = 0 := List.count_eq_zero.mpr hx
      simp [hx, hz]
  have hall : ∀ a ∈ newRulesOf ((entryChildren c).map (fun e => (nameD e, e))) L ++
      remainingOf ((entryChildren c).map (fun e => (nameD e, e))) L,
      a.tag = "entry" := by
    intro a ha
    rcases List.mem_append.mp ha with hnew | hrem
    · rcases mem_newRulesOf_graph _ L a h2 hnew with ⟨hmem, _⟩
      exact tag_entry_of_mem_entryChildren c a hmem
    · rw [remainingOf_graph] at hrem
      exact tag_entry_of_mem_entryChildren c a (List.mem_of_mem_filter hrem)
  have hch : entryChildren (Element.mk c.tag [] none
      (newRulesOf ((entryChildren c).map (fun e => (nameD e, e))) L ++
        remainingOf ((entryChildren c).map (fun e => (nameD e, e))) L)) =
      newRulesOf ((entryChildren c).map (fun e => (nameD e, e))) L ++
        remainingOf ((entryChildren c).map (fun e => (nameD e, e))) L := by
    simp only [entryChildren, children_mk]
    exact List.filter_eq_self.mpr (fun a ha => by simp [hall a ha])
  refine ⟨_, hr, ?_, ?_, ?_⟩
  · simpa [reorderOut_container, children_mk] using hperm
  · simp only [reorderOut_container, children_mk]
    exact hch
  · simp only [reorderOut_container, hch, children_mk]
    exact List.toFinset_eq_of_perm _ _ (hperm.filterMap _)

/-- C1 witness: a concrete container with entries a, b, c and the list
[b, zz]. -/
theorem reorder_preserves_rule_entry_set_witness :
    ∃ r, reorder_core sampleRules ["b", "zz"] = .ok r ∧
      r.container.children.Perm (entryChildren sampleRules) ∧
      entryChildren r.container = r.container.children ∧
      ((entryChildren r.container).filterMap (fun e => e.getAttr ("name"))).toFinset =
        ((entryChildren sampleRules).filterMap (fun e => e.getAttr ("name"))).toFinset :=
  reorder_preserves_rule_entry_set sampleRules ["b", "zz"]
    (by decide) (by decide) (by decide)

/-- C4: for every well-formed container (entry children named, names unique
within the container) and every order list, every rule entry whose name
does not occur in the list is appended after all entries named in the list,
and these appended extras keep their original relative document order among
themselves (the output is some prefix of listed entries followed by the
in-order filter of the unlisted entries). -/
theorem unlisted_entries_appended_in_order (c : Element) (L : List String)
    (h1 : ∀ e ∈ entryChildren c, (e.getAttr ("name")).isSome)
    (h2 : ((entryChildren c).map nameD).Nodup) :
    ∃ r pre, reorder_core c L = .ok r ∧
      r.container.children =
        pre ++ (entryChildren c).filter (fun e => decide (nameD e ∉ L)) ∧
      (∀ e ∈ pre, nameD e ∈ L) := by
  have hpm : buildPolicyMap (entryChildren c) =
      .ok ((entryChildren c).map (fun e => (nameD e, e))) := by
    unfold buildPolicyMap
    exact bpm_graph (entryChildren c) [] h1 (by simpa [keysOf] using h2)
  have hr := reorder_core_eq c L _ hpm
  refine ⟨_, newRulesOf ((entryChildren c).map (fun e => (nameD e, e))) L,
    hr, ?_, ?_⟩
  · simp only [reorderOut_container, children_mk]
    rw [remainingOf_graph]
  · intro e he
    exact (mem_newRulesOf_graph _ L e h2 he).2

/-- C4 witness: entries a, b, c with list [c, a]: entry b is the extra. -/
theorem unlisted_entries_appended_in_order_witness :
    ∃ r pre, reorder_core sampleRules ["c", "a"] = .ok r ∧
      r.container.children =
        pre ++ (entryChildren sampleRules).filter
          (fun e => decide (nameD e ∉ ["c", "a"])) ∧
      (∀ e ∈ pre, nameD e ∈ ["c", "a"]) :=
  unlisted_entries_appended_in_order sampleRules ["c", "a"]
    (by decide) (by decide)

theorem optOr_none_right (a : Option Element) : optOr a none = a := by
  cases a <;> rfl

theorem bpm_coherent (es : List Element) (pm : List (String × Element))
    (h : buildPolicyMap es = .ok pm) :
    ∀ p ∈ pm, p.2.getAttr ("name") = some p.1 ∧ p.2 ∈ es :=
  bpm_pred (fun p => p.2.getAttr ("name") = some p.1 ∧ p.2 ∈ es) es [] pm h
    (by simp) (fun e he n hn => ⟨hn, he⟩)

theorem countP_name_newRulesOf (pm : List (String × Element)) (L : List String)
    (n : String)
    (hcoh : ∀ p ∈ pm, p.2.getAttr ("name") = some p.1) :
    (newRulesOf pm L).countP (fun e => decide (e.getAttr ("name") = some n)) =
      if n ∈ keysOf pm then L.count n else 0 := by
  unfold newRulesOf
  rw [List.countP_filterMap]
  by_cases hk : n ∈ keysOf pm
  · rw [if_pos hk, List.count_eq_countP]
    apply List.countP_congr
    intro a _
    cases hl : lookupName pm a with
    | none =>
      simp only [hl, Option.map_none', Option.getD_none, Bool.false_eq_true,
        false_iff]
      intro han
      have han' : a = n := by simpa using han
      subst han'
      rw [lookupName_eq_none] at hl
      exact hl hk
    | some y =>
      simp only [hl, Option.map_some', Option.getD_some]
      have hy := hcoh (a, y) (lookupName_mem pm a y hl)
      constructor
      · intro hp
        have : y.getAttr ("name") = some n := by simpa using hp
        rw [hy] at this
        cases this
        simp
      · intro han
        have han' : a = n := by simpa using han
        subst han'
        simp [hy]
  · rw [if_neg hk, List.countP_eq_zero]
    intro a _
    cases hl : lookupName pm a with
    | none => simp [hl]
    | some y =>
      simp only [hl, Option.map_some', Option.getD_some]
      intro hp
      have hy := hcoh (a, y) (lookupName_mem pm a y hl)
      have : y.getAttr ("name") = some n := by simpa using hp
      rw [hy] at this
      cases this
      exact hk (List.mem_map_of_mem Prod.fst (lookupName_mem pm _ y hl))

theorem countP_name_remainingOf (pm : List (String × Element)) (L : List String)
    (n : String)
    (hcoh : ∀ p ∈ pm, p.2.getAttr ("name") = some p.1)
    (hnd : (keysOf pm).Nodup) :
    (remainingOf pm L).countP (fun e => decide (e.getAttr ("name") = some n)) =
      if n ∈ keysOf pm ∧ n ∉ L then 1 else 0 := by
  unfold remainingOf remainingPairsOf
  rw [List.countP_map, List.countP_filter]
  simp only [Function.comp]
  by_cases hL : n ∈ L
  · rw [if_neg (fun hc => hc.2 hL), List.countP_eq_zero]
    intro q hq
    intro hc
    rcases (Bool.and_eq_true _ _).mp hc with ⟨hname, hnotin⟩
    have hq1 : q.2.getAttr ("name") = some q.1 := hcoh q hq
    have : q.2.getAttr ("name") = some n := by simpa using hname
    rw [hq1] at this
    cases this
    exact (by simpa using hnotin : q.1 ∉ L) hL
  · have hcong : List.countP
        (fun q => decide ((Prod.snd q).getAttr ("name") = some n) &&
          decide (q.1 ∉ L)) pm =
        List.countP (fun q => decide (q.1 = n)) pm := by
      apply List.countP_congr
      intro q hq
      have hq1 : q.2.getAttr ("name") = some q.1 := hcoh q hq
      constructor
      · intro hc
        rcases (Bool.and_eq_true _ _).mp hc with ⟨hname, _⟩
        have : q.2.getAttr ("name") = some n := by simpa using hname
        rw [hq1] at this
        cases this
        simp
      · intro hc
        have hqn : q.1 = n := by simpa using hc
        subst hqn
        simp [hq1, hL]
    rw [hcong]
    have hkeys : List.countP (fun q => decide (q.1 = n)) pm =
        (keysOf pm).count n := by
      rw [List.count_eq_countP, keysOf, List.countP_map]
      apply List.countP_congr
      intro q _
      simp [Function.comp]
    rw [hkeys]
    by_cases hk : n ∈ keysOf pm
    · rw [if_pos ⟨hk, hL⟩, List.count_eq_one_of_mem hnd hk]
    · rw [if_neg (fun hc => hk hc.1), List.count_eq_zero.mpr hk]

/-- C2 counterexample: with container entries a, b, c and desired list
[a, a], the entry named a appears twice in the output sequence, not exactly
once — the ordering loop never removes a found entry from the mapping, so
the second occurrence finds the same element again. -/
theorem second_occurrence_duplicates_entry_cex :
    (reorder_core sampleRules ["a", "a"]).map
        (fun r => r.container.children.count entryA) = .ok 2 ∧
      (reorder_core sampleRules ["a", "a"]).map
        (fun r => r.container.children.count entryA) ≠ .ok 1 := by
  constructor
  · decide
  · decide

/-- C2 amended: each occurrence of a name in the desired order list is
looked up independently in the unchanged mapping, so an entry whose name
occurs k times in the list (and is present in the document) appears exactly
k times in the output sequence — once per occurrence, not once in total. -/
theorem each_occurrence_emits_entry (c : Element) (L : List String)
    (n : String) (e : Element) (pm : List (String × Element))
    (hpm : buildPolicyMap (entryChildren c) = .ok pm)
    (hl : lookupName pm n = some e)
    (hn : n ∈ L) :
    ∃ r, reorder_core c L = .ok r ∧
      r.container.children.count e = L.count n := by
  have hcoh := bpm_coherent (entryChildren c) pm hpm
  have hen : e.getAttr ("name") = some n := (hcoh (n, e) (lookupName_mem pm n e hl)).1
  have hr := reorder_core_eq c L pm hpm
  refine ⟨_, hr, ?_⟩
  simp only [reorderOut_container, children_mk]
  rw [List.count_append]
  have hnew : (newRulesOf pm L).count e = L.count n := by
    unfold newRulesOf
    rw [List.count_eq_countP, List.countP_filterMap, List.count_eq_countP]
    apply List.countP_congr
    intro a _
    cases hla : lookupName pm a with
    | none =>
      simp only [hla, Option.map_none', Option.getD_none, Bool.false_eq_true,
        false_iff]
      intro han
      have : a = n := by simpa using han
      subst this
      rw [hla] at hl
      cases hl
    | some y =>
      simp only [hla, Option.map_some', Option.getD_some]
      have hya := (hcoh (a, y) (lookupName_mem pm a y hla)).1
      constructor
      · intro hye
        have : y = e := by simpa using hye
        subst this
        rw [hen] at hya
        cases hya
        simp
      · intro han
        have : a = n := by simpa using han
        subst this
        rw [hla] at hl
        cases hl
        simp
  have hrem : (remainingOf pm L).count e = 0 := by
    unfold remainingOf remainingPairsOf
    rw [List.count_eq_countP, List.countP_map, List.countP_eq_zero]
    intro q hq
    have hq' := List.mem_of_mem_filter hq
    have hkeep := List.of_mem_filter hq
    intro hc
    have hqe : q.2 = e := by simpa [Function.comp] using hc
    have hqa := (hcoh q hq').1
    rw [hqe, hen] at hqa
    have : q.1 = n := by
      cases hqa
      rfl
    rw [this] at hkeep
    exact (by simpa using hkeep : n ∉ L) hn
  rw [hnew, hrem]
  omega

/-- C2 amended witness: the concrete container and the list [a, a] yield
two copies of the entry named a. -/
theorem each_occurrence_emits_entry_witness :
    ∃ r, reorder_core sampleRules ["a", "a"] = .ok r ∧
      r.container.children.count entryA = (["a", "a"] : List String).count ("a") :=
  each_occurrence_emits_entry sampleRules ["a", "a"] ("a") entryA
    [(("a" : String), entryA), ("b", entryB), ("c", entryC)]
    (by decide) (by decide) (by decide)

theorem reorderOut_log (e : Element) (lg : List String) :
    (ReorderOut.mk e lg).log = lg := rfl

/-- C3: for every container whose entry children (each carrying a name
attribute) include two or more entries sharing a name, the name → element
mapping silently keeps only the later duplicate — looking up a name yields
the last entry carrying it — no error is raised, and, for any order list
that does not repeat a document name, the output container holds exactly
one entry per distinct name: the duplicate is invisibly collapsed rather
than flagged. -/
theorem duplicate_doc_names_collapse_keep_last (c : Element) (L : List String)
    (h1 : ∀ e ∈ entryChildren c, (e.getAttr ("name")).isSome)
    (_hdup : ¬ ((entryChildren c).map nameD).Nodup)
    (h3 : ∀ n ∈ (entryChildren c).filterMap (fun e => e.getAttr ("name")),
      L.count n ≤ 1) :
    ∃ pm r, buildPolicyMap (entryChildren c) = .ok pm ∧
      reorder_core c L = .ok r ∧
      (∀ n : String, lookupName pm n =
        ((entryChildren c).filter
          (fun e => decide (e.getAttr ("name") = some n))).getLast?) ∧
      (∀ n ∈ (entryChildren c).filterMap (fun e => e.getAttr ("name")),
        (r.container.children.filter
          (fun e => decide (e.getAttr ("name") = some n))).length = 1) := by
  obtain ⟨pm, hpm⟩ := bpm_ok (entryChildren c) [] h1
  have hpm' : buildPolicyMap (entryChildren c) = .ok pm := hpm
  have hr := reorder_core_eq c L pm hpm'
  have hcoh : ∀ p ∈ pm, p.2.getAttr ("name") = some p.1 :=
    fun p hp => (bpm_coherent _ pm hpm' p hp).1
  have hnd : (keysOf pm).Nodup :=
    bpm_keys_nodup (entryChildren c) [] pm hpm' (by simp [keysOf])
  have hkeys : ∀ k, k ∈ keysOf pm ↔
      k ∈ (entryChildren c).filterMap (fun e => e.getAttr ("name")) := by
    intro k
    have := bpm_mem_keys (entryChildren c) [] pm hpm' k
    simpa [keysOf] using this
  refine ⟨pm, _, hpm', hr, ?_, ?_⟩
  · intro n
    have hlast := bpm_lookup_last (entryChildren c) [] pm hpm' h1 n
    simpa [lookupName, optOr_none_right] using hlast
  · intro n hn
    simp only [reorderOut_container, children_mk]
    rw [← List.countP_eq_length_filter]
    rw [List.countP_append, countP_name_newRulesOf pm L n hcoh,
      countP_name_remainingOf pm L n hcoh hnd]
    have hk : n ∈ keysOf pm := (hkeys n).mpr hn
    by_cases hL : n ∈ L
    · have hone : L.count n = 1 :=
        Nat.le_antisymm (h3 n hn) (List.one_le_count_iff.mpr hL)
      simp [hk, hL, hone]
    · simp [hk, hL, List.count_eq_zero.mpr hL]

/-- C3 witness: container with entries named a, a, b (the second a-entry
differs from the first) and order list [b]. -/
theorem duplicate_doc_names_collapse_keep_last_witness :
    ∃ pm r, buildPolicyMap (entryChildren sampleRulesDup) = .ok pm ∧
      reorder_core sampleRulesDup ["b"] = .ok r ∧
      (∀ n : String, lookupName pm n =
        ((entryChildren sampleRulesDup).filter
          (fun e => decide (e.getAttr ("name") = some n))).getLast?) ∧
      (∀ n ∈ (entryChildren sampleRulesDup).filterMap
          (fun e => e.getAttr ("name")),
        (r.container.children.filter
          (fun e => decide (e.getAttr ("name") = some n))).length = 1) :=
  duplicate_doc_names_collapse_keep_last sampleRulesDup ["b"]
    (by decide) (by decide) (by decide)

/-- C6: a name in the order list that is absent from the document is
non-fatal: the rewrite succeeds, no entry with that name appears among the
output children, and the warning notice for it is printed. -/
theorem missing_list_name_warns_and_skips (c : Element) (L : List String)
    (n5 : String)
    (h1 : ∀ e ∈ entryChildren c, (e.getAttr ("name")).isSome)
    (hin : n5 ∈ L)
    (habs : n5 ∉ (entryChildren c).filterMap (fun e => e.getAttr ("name"))) :
    ∃ r, reorder_core c L = .ok r ∧
      (∀ e ∈ r.container.children, e.getAttr ("name") ≠ some n5) ∧
      warnMsg n5 ∈ r.log := by
  obtain ⟨pm, hpm⟩ := bpm_ok (entryChildren c) [] h1
  have hpm' : buildPolicyMap (entryChildren c) = .ok pm := hpm
  have hr := reorder_core_eq c L pm hpm'
  have hcoh : ∀ p ∈ pm, p.2.getAttr ("name") = some p.1 :=
    fun p hp => (bpm_coherent _ pm hpm' p hp).1
  have hk : n5 ∉ keysOf pm := by
    intro hmem
    rcases (bpm_mem_keys (entryChildren c) [] pm hpm' n5).mp hmem with h | h
    · simp [keysOf] at h
    · exact habs h
  refine ⟨_, hr, ?_, ?_⟩
  · intro e he hee
    simp only [reorderOut_container, children_mk] at he
    rcases List.mem_append.mp he with hnew | hrem
    · rcases List.mem_filterMap.mp hnew with ⟨a, _, hla⟩
      have hpair := hcoh (a, e) (lookupName_mem pm a e hla)
      rw [hee] at hpair
      cases hpair
      exact hk (List.mem_map_of_mem Prod.fst (lookupName_mem pm _ e hla))
    · rcases List.mem_map.mp hrem with ⟨q, hq, hqe⟩
      have hq' := List.mem_of_mem_filter hq
      have hpair := hcoh q hq'
      rw [hqe, hee] at hpair
      have hq1 : q.1 = n5 := by
        cases hpair
        rfl
      apply hk
      rw [← hq1]
      exact List.mem_map_of_mem Prod.fst hq'
  · simp only [reorderOut_log]
    apply List.mem_append_left
    unfold warnsOf
    apply List.mem_map_of_mem
    refine List.mem_filter.mpr ⟨hin, ?_⟩
    have hnone : lookupName pm n5 = none := (lookupName_eq_none pm n5).mpr hk
    simp [hnone]

/-- C6 witness: entries a, b, c with list [zz, b]: zz is absent. -/
theorem missing_list_name_warns_and_skips_witness :
    ∃ r, reorder_core sampleRules ["zz", "b"] = .ok r ∧
      (∀ e ∈ r.container.children, e.getAttr ("name") ≠ some ("zz")) ∧
      warnMsg ("zz") ∈ r.log :=
  missing_list_name_warns_and_skips sampleRules ["zz", "b"] ("zz")
    (by decide) (by decide) (by decide)

/-- C10: on success the rewritten container keeps only its tag: its
attributes are cleared and its text dropped (`clear()`), every output child
is one of the original children and carries the tag `entry`, and every
original child with a different tag — a comment or other element — is
discarded. -/
theorem container_cleared_entries_only (c : Element) (L : List String)
    (r : ReorderOut) (h : reorder_core c L = .ok r) :
    r.container.tag = c.tag ∧ r.container.attrib = [] ∧
      r.container.text = none ∧
      (∀ e ∈ r.container.children, e ∈ c.children ∧ e.tag = "entry") ∧
      (∀ e ∈ c.children, e.tag ≠ "entry" → e ∉ r.container.children) := by
  cases hpm : buildPolicyMap (entryChildren c) with
  | error msg =>
    unfold reorder_core at h
    rw [hpm] at h
    cases h
  | ok pm =>
    have hr := reorder_core_eq c L pm hpm
    rw [hr] at h
    cases h
    have hcoh := bpm_coherent _ pm hpm
    have hmem : ∀ e ∈ newRulesOf pm L ++ remainingOf pm L,
        e ∈ entryChildren c := by
      intro e he
      rcases List.mem_append.mp he with hnew | hrem
      · rcases List.mem_filterMap.mp hnew with ⟨a, _, hla⟩
        exact (hcoh (a, e) (lookupName_mem pm a e hla)).2
      · rcases List.mem_map.mp hrem with ⟨q, hq, hqe⟩
        rw [← hqe]
        exact (hcoh q (List.mem_of_mem_filter hq)).2
    refine ⟨rfl, rfl, rfl, ?_, ?_⟩
    · intro e he
      simp only [reorderOut_container, children_mk] at he
      have hm := hmem e he
      exact ⟨List.mem_of_mem_filter hm, tag_entry_of_mem_entryChildren c e hm⟩
    · intro e _ htag hcontra
      simp only [reorderOut_container, children_mk] at hcontra
      exact htag (tag_entry_of_mem_entryChildren c e (hmem e hcontra))

/-- C10 witness: the sample container holds a non-entry child, a non-empty
attribute list and text; with list [b] the output is the bare rules element
with only entry children. -/
theorem container_cleared_entries_only_witness :
    ((ReorderOut.mk (Element.mk ("rules") [] none [entryB, entryA, entryC])
        [noteHeader, noteLine entryA, noteLine entryC]).container.tag =
      sampleRules.tag) ∧
      ((ReorderOut.mk (Element.mk ("rules") [] none [entryB, entryA, entryC])
        [noteHeader, noteLine entryA, noteLine entryC]).container.attrib = []) ∧
      ((ReorderOut.mk (Element.mk ("rules") [] none [entryB, entryA, entryC])
        [noteHeader, noteLine entryA, noteLine entryC]).container.text = none) ∧
      (∀ e ∈ (ReorderOut.mk (Element.mk ("rules") [] none [entryB, entryA, entryC])
        [noteHeader, noteLine entryA, noteLine entryC]).container.children,
        e ∈ sampleRules.children ∧ e.tag = "entry") ∧
      (∀ e ∈ sampleRules.children, e.tag ≠ "entry" →
        e ∉ (ReorderOut.mk (Element.mk ("rules") [] none [entryB, entryA, entryC])
          [noteHeader, noteLine entryA, noteLine entryC]).container.children) :=
  container_cleared_entries_only sampleRules ["b"]
    (ReorderOut.mk (Element.mk ("rules") [] none [entryB, entryA, entryC])
      [noteHeader, noteLine entryA, noteLine entryC]) (by decide)

/-- C5: the section locator behaves exactly as the spec describes, in both
modes and for namespaced and namespace-free documents alike: shared mode
prefers shared → post-rulebase → security → rules, falls back to the
pre-rulebase path, and otherwise fails with the shared not-found error;
device-group mode fails with the group-not-found error when no device-group
entry carries the requested name, otherwise applies the same post-then-pre
preference inside the first matching entry and fails with the rules
not-found error when neither sub-section exists. -/
theorem find_rules_section_characterization (root : Element) (dg : String) :
    find_rules_section root dg true = sharedSectionSpec root ∧
    find_rules_section root dg false = dgSectionSpec root dg := by
  constructor
  · unfold find_rules_section sharedSectionSpec nsPath nsTagQ
    cases h : hasNsTag root.tag <;> simp [h, qualTag]
  · unfold find_rules_section dgSectionSpec nsPath nsTagQ
    cases h : hasNsTag root.tag <;> simp [h, qualTag]

theorem getPath_setPath_disjoint : ∀ (p q : List Nat) (root r : Element),
    ¬ p <+: q → ¬ q <+: p →
    getPath (setPath root p r) q = getPath root q := by
  intro p
  induction p with
  | nil =>
    intro q root r hpq _
    exact absurd List.nil_prefix hpq
  | cons i p' ih =>
    intro q root r hpq hqp
    cases q with
    | nil => exact absurd List.nil_prefix hqp
    | cons j q' =>
      unfold setPath
      cases hc : root.children[i]? with
      | none => rfl
      | some c =>
        by_cases hij : i = j
        · subst hij
          have hpq' : ¬ p' <+: q' :=
            fun hh => hpq (List.cons_prefix_cons.mpr ⟨rfl, hh⟩)
          have hqp' : ¬ q' <+: p' :=
            fun hh => hqp (List.cons_prefix_cons.mpr ⟨rfl, hh⟩)
          have hlen : i < root.children.length := by
            rcases List.getElem?_eq_some_iff.mp hc with ⟨hlt, _⟩
            exact hlt
          show getPath (Element.mk root.tag root.attrib root.text
            (root.children.set i (setPath c p' r))) (i :: q') =
            getPath root (i :: q')
          unfold getPath
          rw [children_mk, List.getElem?_set_self hlen, hc]
          exact ih q' c r hpq' hqp'
        · show getPath (Element.mk root.tag root.attrib root.text
            (root.children.set i (setPath c p' r))) (j :: q') =
            getPath root (j :: q')
          unfold getPath
          rw [children_mk, List.getElem?_set_ne hij]

theorem getPath_setPath_ancestor : ∀ (q p : List Nat) (root r : Element),
    q <+: p → q ≠ p →
    (getPath (setPath root p r) q).map shellOf =
      (getPath root q).map shellOf := by
  intro q
  induction q with
  | nil =>
    intro p root r _ hne
    cases p with
    | nil => exact absurd rfl hne
    | cons i p' =>
      unfold setPath
      cases hc : root.children[i]? with
      | none => rfl
      | some c =>
        show some (shellOf (Element.mk root.tag root.attrib root.text
          (root.children.set i (setPath c p' r)))) = some (shellOf root)
        unfold shellOf
        simp [Element.tag, Element.attrib, Element.text, children_mk,
          List.length_set]
  | cons j q' ih =>
    intro p root r hpre hne
    cases p with
    | nil =>
      simp at hpre
    | cons i p' =>
      rcases List.cons_prefix_cons.mp hpre with ⟨rfl, hpre'⟩
      have hne' : q' ≠ p' := fun hh => hne (by rw [hh])
      unfold setPath
      cases hc : root.children[j]? with
      | none => rfl
      | some c =>
        have hlen : j < root.children.length := by
          rcases List.getElem?_eq_some_iff.mp hc with ⟨hlt, _⟩
          exact hlt
        show ((getPath (Element.mk root.tag root.attrib root.text
          (root.children.set j (setPath c p' r))) (j :: q')).map shellOf) =
          (getPath root (j :: q')).map shellOf
        unfold getPath
        rw [children_mk, List.getElem?_set_self hlen, hc]
        exact ih p' c r hpre' hne'

/-- C7: the document-level rewrite at the container's position changes
nothing outside the container: every position that is neither inside the
container nor on the path to it resolves to the identical subtree before
and after, and every proper ancestor of the container keeps its tag,
attributes, text and child count (only the one child on the path to the
container is replaced). -/
theorem reorder_frame_outside_container (root : Element) (p : List Nat)
    (L : List String) (root' : Element)
    (h : reorderAt root p L = .ok root') :
    (∀ q, ¬ p <+: q → ¬ q <+: p → getPath root' q = getPath root q) ∧
    (∀ q, q <+: p → q ≠ p →
      (getPath root' q).map shellOf = (getPath root q).map shellOf) := by
  unfold reorderAt at h
  cases hg : getPath root p with
  | none =>
    rw [hg] at h
    have h2 : (Except.error ("no rules section at the given position") :
        Except String Element) = .ok root' := h
    cases h2
  | some sec =>
    rw [hg] at h
    have h2 : Except.map (fun r => setPath root p r.container)
        (reorder_core sec L) = .ok root' := h
    cases hrc : reorder_core sec L with
    | error msg =>
      rw [hrc] at h2
      cases h2
    | ok r =>
      rw [hrc] at h2
      simp only [Except.map] at h2
      cases h2
      constructor
      · intro q hpq hqp
        exact getPath_setPath_disjoint p q root r.container hpq hqp
      · intro q hq hne
        exact getPath_setPath_ancestor q p root r.container hq hne

/-- C7 witness: rewriting the shared rules at position [0,0,0,0] of the
sample document leaves the sibling subtree at [1] and the shells of all
ancestors untouched. -/
theorem reorder_frame_outside_container_witness :
    (∀ q, ¬ [0, 0, 0, 0] <+: q → ¬ q <+: ([0, 0, 0, 0] : List Nat) →
      getPath (wrapShared (Element.mk ("rules") [] none [entryB, entryA, entryC])) q =
        getPath sampleRoot q) ∧
    (∀ q, q <+: ([0, 0, 0, 0] : List Nat) → q ≠ [0, 0, 0, 0] →
      (getPath (wrapShared (Element.mk ("rules") [] none [entryB, entryA, entryC])) q).map shellOf =
        (getPath sampleRoot q).map shellOf) :=
  reorder_frame_outside_container sampleRoot [0, 0, 0, 0] ["b"]
    (wrapShared (Element.mk ("rules") [] none [entryB, entryA, entryC]))
    (by decide)

/-- C8: with the listing flag set and the XML file present, the run exits
with code 0, opens only the XML file — never the order-list path, even when
that file does not exist — writes no file, and prints the device-group
listing, which contains a line for every device-group entry. -/
theorem list_mode_reads_no_csv_writes_nothing (args : Args) (w : World)
    (hl : args.list = true) (hx : w.xmlExists = true) :
    mainRun args w = ⟨0, [args.xml_file], [], list_device_groups w.doc⟩ ∧
    ∀ e ∈ findallDesc w.doc ["device-group", "entry"],
      ("  - " ++ pyShowOpt (e.getAttr ("name"))) ∈ (mainRun args w).output := by
  have hmain : mainRun args w = ⟨0, [args.xml_file], [], list_device_groups w.doc⟩ := by
    unfold mainRun
    rw [if_neg (by simp [hx]), if_neg (by simp [hl]), if_pos hl]
  refine ⟨hmain, ?_⟩
  intro e he
  rw [hmain]
  show ("  - " ++ pyShowOpt (e.getAttr ("name"))) ∈ list_device_groups w.doc
  unfold list_device_groups
  refine List.mem_append.mpr (Or.inr ?_)
  exact List.mem_map_of_mem _ he

/-- C8 witness: listing mode on the sample document in a world where the
CSV file does not exist. -/
theorem list_mode_reads_no_csv_writes_nothing_witness :
    mainRun sampleArgsListing sampleWorldListing =
      ⟨0, [sampleArgsListing.xml_file], [],
        list_device_groups sampleWorldListing.doc⟩ ∧
    ∀ e ∈ findallDesc sampleWorldListing.doc ["device-group", "entry"],
      ("  - " ++ pyShowOpt (e.getAttr ("name"))) ∈
        (mainRun sampleArgsListing sampleWorldListing).output :=
  list_mode_reads_no_csv_writes_nothing sampleArgsListing sampleWorldListing
    rfl rfl

/-- C9: when a direct entry child of the located rules section lacks a name
attribute, the dict comprehension raises KeyError before anything is
written: main catches the exception, prints the error and exits with code
1, writing no output file. -/
theorem unnamed_entry_aborts_run (args : Args) (w : World) (sec : Element)
    (hl : args.list = false) (hx : w.xmlExists = true) (hc : w.csvExists = true)
    (hsel : args.shared = true ∨ dgFalsy args.device_group = false)
    (hf : find_rules_section w.doc ((args.device_group).getD "") args.shared =
      .ok sec)
    (he : ∃ e ∈ entryChildren sec, e.getAttr ("name") = none) :
    (mainRun args w).exitCode = 1 ∧ (mainRun args w).writes = [] ∧
      (mainRun args w).output = ["❌ Error: " ++ keyErrMsg] := by
  have herr : buildPolicyMap (entryChildren sec) = .error keyErrMsg :=
    bpm_err (entryChildren sec) [] he
  have hsel' : ¬ (args.shared = false ∧ dgFalsy args.device_group = true) := by
    rcases hsel with h | h <;> simp [h]
  have hmain : mainRun args w = ⟨1, [args.xml_file, args.xml_file], [],
      ["❌ Error: " ++ keyErrMsg]⟩ := by
    unfold mainRun
    rw [if_neg (by simp [hx]), if_neg (by simp [hl, hc]),
      if_neg (by simp [hl]), if_neg hsel', hf]
    simp only [herr]
  rw [hmain]
  exact ⟨rfl, rfl, rfl⟩

/-- C9 witness: a shared-mode run over a document whose rules hold an entry
without a name attribute. -/
theorem unnamed_entry_aborts_run_witness :
    (mainRun sampleArgs sampleWorldBad).exitCode = 1 ∧
      (mainRun sampleArgs sampleWorldBad).writes = [] ∧
      (mainRun sampleArgs sampleWorldBad).output = ["❌ Error: " ++ keyErrMsg] :=
  unnamed_entry_aborts_run sampleArgs sampleWorldBad sampleRulesBad
    rfl rfl rfl (Or.inl rfl) (by decide) (by decide)
